import Mathlib

/-!
Verification development for the StegoShield detection-and-watermarking
service (`stegoshield_service/main.py`).  The pure cores of the analyzers,
the decision policy and the DCT watermark embedder are embedded shallowly:
machine floats become exact rationals (or reals where a logarithm is
involved), numpy arrays become functions, and the external collaborators
(image decode, OCR, the 8x8 block transform of cv2) are parameters.
-/

namespace StegoShield

/-- Watch-list of suspicious metadata field names (`METADATA_SUSPICION_KEYS`). -/
def METADATA_SUSPICION_KEYS : List String :=
  ["comment", "UserComment", "XPComment", "ImageDescription"]

/-- Keyword list used by the OCR and RDR stages (`SUSPICIOUS_KEYWORDS`). -/
def SUSPICIOUS_KEYWORDS : List String :=
  ["ignore", "download", "secret", "password", "execute", "run", "open", "leak", "exfiltrate"]

/-- Threshold for a BLOCK base decision (`SCORE_BLOCK = 0.85`). -/
def SCORE_BLOCK : ℚ := 85 / 100

/-- Threshold for a SUSPICIOUS base decision (`SCORE_QUARANTINE = 0.55`). -/
def SCORE_QUARANTINE : ℚ := 55 / 100

/-- Python substring test `k in t.lower()` against the keyword list, as in
`any(k in t.lower() for k in SUSPICIOUS_KEYWORDS)`.  Lower-casing is the
ASCII character map (the keywords themselves are ASCII), and the substring
test is contiguous-infix on the character lists. -/
def is_suspicious_text (t : String) : Bool :=
  SUSPICIOUS_KEYWORDS.any fun k => decide (k.data <:+: t.data.map Char.toLower)

/-- Pure core of `rdr_inconsistency_score`: the aggregation of the list of
non-empty texts returned by the resample trials (trials that threw or returned
empty text never enter `texts` in the source).  Returns the inconsistency
score and the list of suspicious texts. -/
def rdr_inconsistency_score (texts : List String) : ℚ × List String :=
  if texts.isEmpty then (0, [])
  else
    let count_susp := (texts.filter is_suspicious_text).length
    let frac : ℚ := (count_susp : ℚ) / (max 1 texts.length : ℕ)
    let inconsistency : ℚ :=
      if 0 < count_susp ∧ frac < 7 / 10 then 1 / 2 + 1 / 2 * (1 - frac)
      else if 0 < count_susp then 2 / 5 * frac
      else 0
    (inconsistency, texts.filter is_suspicious_text)

/-- Composite score of `analyze`:
`float(max(0.0, min(1.0, 0.35*lsb + 0.15*(glob/8) + 0.25*blockiness + (0.6 if flags else 0.0))))`. -/
def stego_score (lsb glob blockiness : ℚ) (flags : List String) : ℚ :=
  max 0 (min 1 (35 / 100 * lsb + 15 / 100 * (glob / 8) + 25 / 100 * blockiness +
    (if flags = [] then 0 else 6 / 10)))

/-- The three-tier verdict. -/
inductive Decision where
  | ALLOW
  | SUSPICIOUS
  | BLOCK
deriving DecidableEq, Repr

/-- Severity order ALLOW < SUSPICIOUS < BLOCK. -/
def severity : Decision → ℕ
  | Decision.ALLOW => 0
  | Decision.SUSPICIOUS => 1
  | Decision.BLOCK => 2

/-- Base decision of `analyze` from the composite score. -/
def base_decision (score : ℚ) : Decision :=
  if SCORE_BLOCK ≤ score then Decision.BLOCK
  else if SCORE_QUARANTINE ≤ score then Decision.SUSPICIOUS
  else Decision.ALLOW

/-- First escalation step: `if rdr_score >= 0.5: decision = SUSPICIOUS if decision == ALLOW else BLOCK`. -/
def rdr_escalate (rdr : ℚ) (d : Decision) : Decision :=
  if 1 / 2 ≤ rdr then (if d = Decision.ALLOW then Decision.SUSPICIOUS else Decision.BLOCK) else d

/-- Second escalation step: `if suspicious_boxes and decision != BLOCK: decision = SUSPICIOUS`. -/
def ocr_escalate (susp : Bool) (d : Decision) : Decision :=
  if susp = true ∧ d ≠ Decision.BLOCK then Decision.SUSPICIOUS else d

/-- Final decision of `analyze`: base decision then the two escalation steps in source order. -/
def final_decision (score rdr : ℚ) (susp : Bool) : Decision :=
  ocr_escalate susp (rdr_escalate rdr (base_decision score))

/-- C8: for every combination of component scores, the composite
`stego_score` (the clamped weighted sum) lies in the unit interval. -/
theorem stego_score_in_unit (lsb glob blockiness : ℚ) (flags : List String) :
    0 ≤ stego_score lsb glob blockiness flags ∧ stego_score lsb glob blockiness flags ≤ 1 := by
  unfold stego_score
  exact ⟨le_max_left _ _, max_le (by norm_num) (min_le_left _ _)⟩

/-- C3: the decision is monotonic under escalation: each of the two
escalation steps only raises the severity of the decision, and a BLOCK base
decision is never downgraded by any escalation step. -/
theorem decision_monotone_under_escalation (score rdr : ℚ) (susp : Bool) :
    severity (base_decision score) ≤ severity (rdr_escalate rdr (base_decision score)) ∧
    severity (rdr_escalate rdr (base_decision score)) ≤ severity (final_decision score rdr susp) ∧
    severity (base_decision score) ≤ severity (final_decision score rdr susp) ∧
    (base_decision score = Decision.BLOCK → final_decision score rdr susp = Decision.BLOCK) := by
  unfold final_decision rdr_escalate ocr_escalate
  generalize base_decision score = d
  cases d <;> cases susp <;> split_ifs <;> simp_all [severity]

/-- Witness for C3 at concrete inputs: a BLOCK base decision (score 0.9)
stays BLOCK through both escalation triggers. -/
theorem decision_monotone_under_escalation_witness :
    severity (base_decision (9 / 10)) ≤ severity (rdr_escalate 1 (base_decision (9 / 10))) ∧
    severity (rdr_escalate 1 (base_decision (9 / 10))) ≤ severity (final_decision (9 / 10) 1 true) ∧
    severity (base_decision (9 / 10)) ≤ severity (final_decision (9 / 10) 1 true) ∧
    (base_decision (9 / 10) = Decision.BLOCK → final_decision (9 / 10) 1 true = Decision.BLOCK) :=
  decision_monotone_under_escalation (9 / 10) 1 true

/-- Evaluation of the RDR aggregation when at least one trial returned text. -/
lemma rdr_score_eval (texts : List String) (hn : 0 < texts.length) :
    (rdr_inconsistency_score texts).1 =
      if 0 < (texts.filter is_suspicious_text).length ∧
          ((texts.filter is_suspicious_text).length : ℚ) / (texts.length : ℚ) < 7 / 10 then
        1 / 2 + 1 / 2 * (1 - ((texts.filter is_suspicious_text).length : ℚ) / (texts.length : ℚ))
      else if 0 < (texts.filter is_suspicious_text).length then
        2 / 5 * (((texts.filter is_suspicious_text).length : ℚ) / (texts.length : ℚ))
      else 0 := by
  have hne : ¬ texts.isEmpty = true := by
    simp only [List.isEmpty_iff]
    exact List.ne_nil_of_length_pos hn
  simp only [rdr_inconsistency_score]
  rw [if_neg hne]
  simp only [Nat.max_eq_right hn]

/-- C4: case analysis of the RDR aggregation.  With `s` suspicious trials out
of `n` text-returning trials and `frac = s / n`: the score is 0 when `n = 0`;
otherwise it is 0 when `frac = 0`, `0.5 + 0.5*(1 - frac)` when
`0 < frac < 0.7`, and `0.4 * frac` when `frac ≥ 0.7`. -/
theorem rdr_score_cases (texts : List String) :
    (texts.length = 0 → (rdr_inconsistency_score texts).1 = 0) ∧
    (0 < texts.length →
      ((((texts.filter is_suspicious_text).length : ℚ) / (texts.length : ℚ) = 0 →
          (rdr_inconsistency_score texts).1 = 0) ∧
       (0 < (((texts.filter is_suspicious_text).length : ℚ) / (texts.length : ℚ)) →
          (((texts.filter is_suspicious_text).length : ℚ) / (texts.length : ℚ)) < 7 / 10 →
          (rdr_inconsistency_score texts).1 =
            1 / 2 + 1 / 2 * (1 - ((texts.filter is_suspicious_text).length : ℚ) / (texts.length : ℚ))) ∧
       (7 / 10 ≤ (((texts.filter is_suspicious_text).length : ℚ) / (texts.length : ℚ)) →
          (rdr_inconsistency_score texts).1 =
            2 / 5 * (((texts.filter is_suspicious_text).length : ℚ) / (texts.length : ℚ))))) := by
  refine ⟨fun h => ?_, fun hn => ?_⟩
  · have h0 : texts = [] := List.length_eq_zero.mp h
    subst h0
    rfl
  · have heval := rdr_score_eval texts hn
    have hnq : (0 : ℚ) < (texts.length : ℚ) := by exact_mod_cast hn
    refine ⟨?_, ?_, ?_⟩
    · intro hfrac
      have hs0 : (texts.filter is_suspicious_text).length = 0 := by
        rcases div_eq_zero_iff.mp hfrac with h' | h'
        · exact_mod_cast h'
        · exact absurd h' hnq.ne'
      rw [heval, hs0]
      norm_num
    · intro hpos hlt
      have hs : 0 < (texts.filter is_suspicious_text).length := by
        by_contra h0
        push_neg at h0
        have h00 : (texts.filter is_suspicious_text).length = 0 := Nat.le_zero.mp h0
        rw [h00] at hpos
        norm_num at hpos
      rw [heval, if_pos ⟨hs, hlt⟩]
    · intro hge
      have hs : 0 < (texts.filter is_suspicious_text).length := by
        by_contra h0
        push_neg at h0
        have h00 : (texts.filter is_suspicious_text).length = 0 := Nat.le_zero.mp h0
        rw [h00] at hge
        norm_num at hge
      rw [heval, if_neg (fun hc => absurd hc.2 (not_lt.mpr hge)), if_pos hs]

/-- Witness for C4 at a concrete trial outcome: a single trial whose text is
"secret" gives `frac = 1 ≥ 0.7` and score `0.4`. -/
theorem rdr_score_cases_witness : (rdr_inconsistency_score ["secret"]).1 = 2 / 5 := by
  have hfilter : (List.filter is_suspicious_text ["secret"]).length = 1 := by decide
  have hlen : (["secret"] : List String).length = 1 := rfl
  have h := ((rdr_score_cases ["secret"]).2 (by norm_num)).2.2
  rw [hfilter, hlen] at h
  have h25 := h (by norm_num)
  norm_num at h25
  exact h25

/-- C10: whenever at least 70 percent of the text-returning trials are
suspicious, the RDR score is at most 0.4, hence strictly below the 0.5
escalation threshold of the decision policy. -/
theorem rdr_high_frac_below_threshold (texts : List String)
    (h : (7 : ℚ) / 10 ≤ ((texts.filter is_suspicious_text).length : ℚ) / (texts.length : ℚ)) :
    (rdr_inconsistency_score texts).1 ≤ 2 / 5 ∧ (rdr_inconsistency_score texts).1 < 1 / 2 := by
  rcases Nat.eq_zero_or_pos texts.length with h0 | hn
  · rw [h0] at h
    norm_num at h
  · have hfle : ((texts.filter is_suspicious_text).length : ℚ) / (texts.length : ℚ) ≤ 1 := by
      rw [div_le_one (by exact_mod_cast hn)]
      exact_mod_cast List.length_filter_le _ _
    have heq := (rdr_score_cases texts).2 hn |>.2.2 h
    constructor
    · rw [heq]
      nlinarith
    · rw [heq]
      nlinarith

/-- Witness for C10 at a concrete trial outcome: one trial, text "secret",
`frac = 1`, score `0.4 < 0.5`. -/
theorem rdr_high_frac_below_threshold_witness :
    (rdr_inconsistency_score ["secret"]).1 ≤ 2 / 5 ∧ (rdr_inconsistency_score ["secret"]).1 < 1 / 2 :=
  rdr_high_frac_below_threshold ["secret"] (by
    have hfilter : (List.filter is_suspicious_text ["secret"]).length = 1 := by decide
    rw [hfilter]
    norm_num)

/-- Metadata values as the scanner distinguishes them: strings, raw byte
sequences (`bytes`/`bytearray`), and other scalars (numeric EXIF values). -/
inductive MetaValue where
  | str (s : String)
  | bytes (b : List ℕ)
  | int (n : ℤ)
deriving DecidableEq

/-- The `isinstance(value, (bytes, bytearray))` test. -/
def MetaValue.isBytes : MetaValue → Bool
  | MetaValue.bytes _ => true
  | _ => false

/-- The `isinstance(value, str) and len(value) > 512` test. -/
def MetaValue.isLongStr : MetaValue → Bool
  | MetaValue.str s => 512 < s.length
  | _ => false

/-- ASCII lower-casing of a field name, modelling `k.lower()`. -/
def lowerName (k : String) : String := String.mk (k.data.map Char.toLower)

/-- The `metadata_flags` scanner.  `exif` is the resolved EXIF tag mapping and
`info` the container info dictionary (both external collaborators).  EXIF
entries contribute `meta_field:`, `meta_raw_bytes:` and `meta_long:` labels;
info entries contribute `png_info:` labels; `list(set(flags))` deduplicates. -/
def metadata_flags (exif info : List (String × MetaValue)) : List String :=
  ((exif.flatMap fun tv =>
      (if tv.1 ∈ METADATA_SUSPICION_KEYS then ["meta_field:" ++ tv.1] else []) ++
      (if tv.2.isBytes = true then ["meta_raw_bytes:" ++ tv.1] else []) ++
      (if tv.2.isLongStr = true then ["meta_long:" ++ tv.1] else [])) ++
    (info.flatMap fun kv =>
      if lowerName kv.1 ∈ METADATA_SUSPICION_KEYS ∨ kv.2.isLongStr = true then
        ["png_info:" ++ kv.1]
      else [])).dedup

/-- Labels an EXIF entry `(t, v)` contributes, as a membership statement. -/
lemma mem_exif_entry_flags (l t : String) (v : MetaValue) :
    l ∈ ((if t ∈ METADATA_SUSPICION_KEYS then ["meta_field:" ++ t] else []) ++
      (if v.isBytes = true then ["meta_raw_bytes:" ++ t] else []) ++
      (if v.isLongStr = true then ["meta_long:" ++ t] else [])) ↔
      ((l = "meta_field:" ++ t ∧ t ∈ METADATA_SUSPICION_KEYS) ∨
       (l = "meta_raw_bytes:" ++ t ∧ v.isBytes = true) ∨
       (l = "meta_long:" ++ t ∧ v.isLongStr = true)) := by
  by_cases h1 : t ∈ METADATA_SUSPICION_KEYS <;>
    by_cases h2 : v.isBytes = true <;>
      by_cases h3 : v.isLongStr = true <;>
        simp [h1, h2, h3]

/-- C7 (amended): the scanner output is duplicate-free, and a label is
emitted exactly when some metadata entry justifies it: the three
`meta_field:`, `meta_raw_bytes:`, `meta_long:` forms come from EXIF entries
under the stated conditions, and `png_info:<k>` comes from an info entry
whose lower-cased name is watch-listed or whose string value exceeds 512
characters. -/
theorem metadata_flags_characterization (exif info : List (String × MetaValue)) :
    (metadata_flags exif info).Nodup ∧
    ∀ l : String, l ∈ metadata_flags exif info ↔
      ((∃ tv ∈ exif,
          (l = "meta_field:" ++ tv.1 ∧ tv.1 ∈ METADATA_SUSPICION_KEYS) ∨
          (l = "meta_raw_bytes:" ++ tv.1 ∧ tv.2.isBytes = true) ∨
          (l = "meta_long:" ++ tv.1 ∧ tv.2.isLongStr = true)) ∨
       (∃ kv ∈ info, l = "png_info:" ++ kv.1 ∧
          (lowerName kv.1 ∈ METADATA_SUSPICION_KEYS ∨ kv.2.isLongStr = true))) := by
  refine ⟨List.nodup_dedup _, fun l => ?_⟩
  rw [metadata_flags, List.mem_dedup, List.mem_append]
  constructor
  · rintro (h | h)
    · left
      rw [List.mem_flatMap] at h
      obtain ⟨tv, htv, hmem⟩ := h
      exact ⟨tv, htv, (mem_exif_entry_flags l tv.1 tv.2).mp hmem⟩
    · right
      rw [List.mem_flatMap] at h
      obtain ⟨kv, hkv, hmem⟩ := h
      by_cases hc : lowerName kv.1 ∈ METADATA_SUSPICION_KEYS ∨ kv.2.isLongStr = true
      · rw [if_pos hc] at hmem
        simp at hmem
        exact ⟨kv, hkv, hmem, hc⟩
      · rw [if_neg hc] at hmem
        simp at hmem
  · rintro (⟨tv, htv, hcases⟩ | ⟨kv, hkv, hl, hc⟩)
    · left
      rw [List.mem_flatMap]
      exact ⟨tv, htv, (mem_exif_entry_flags l tv.1 tv.2).mpr hcases⟩
    · right
      rw [List.mem_flatMap]
      refine ⟨kv, hkv, ?_⟩
      rw [if_pos hc]
      simp [hl]

/-- C7 (counterexample): on an empty EXIF table and an info dictionary with
a watch-listed key, the scanner emits the label `png_info:comment`, which is
none of the three forms `meta_field:`, `meta_raw_bytes:`, `meta_long:`
asserted by the claim. -/
theorem metadata_flags_png_label_counterexample :
    metadata_flags [] [("comment", MetaValue.str "x")] = ["png_info:comment"] ∧
    ¬ ((∃ t, "png_info:comment" = "meta_field:" ++ t) ∨
       (∃ t, "png_info:comment" = "meta_raw_bytes:" ++ t) ∨
       (∃ t, "png_info:comment" = "meta_long:" ++ t)) := by
  constructor
  · decide
  · rintro (⟨t, ht⟩ | ⟨t, ht⟩ | ⟨t, ht⟩) <;>
      · obtain ⟨tl⟩ := t
        rw [String.ext_iff] at ht
        simp [String.data_append] at ht

/-- Decoded image in the luma/chroma representation used by the embedder:
one luma plane `y` and two chroma planes `cb`, `cr`, all of extent
`h` rows by `w` columns (plane functions are total; only indices below the
extent are meaningful). -/
structure YCbCr where
  h : ℕ
  w : ℕ
  y : ℕ → ℕ → ℚ
  cb : ℕ → ℕ → ℚ
  cr : ℕ → ℕ → ℚ

/-- Index map of numpy reflect padding on the high side of an axis of size
`n` (period `2n-2`, repeated reflection, no edge duplication). -/
def reflectIdx (n i : ℕ) : ℕ :=
  if n ≤ 1 then 0
  else
    let j := i % (2 * n - 2)
    if j < n then j else 2 * n - 2 - j

/-- Number of 8x8 blocks along an axis of size `n` after reflect padding to
the next multiple of 8: `(n + (8 - n % 8) % 8) / 8`. -/
def blocksOf (n : ℕ) : ℕ := (n + (8 - n % 8) % 8) / 8

/-- The standard base64 alphabet as ASCII codes. -/
def b64alphabet : List ℕ :=
  "ABCDEFGHIJKLMNOPQRSTUVWXYZabcdefghijklmnopqrstuvwxyz0123456789+/".data.map Char.toNat

/-- Standard base64 encoding (`base64.b64encode`) of a byte list, returned
as the list of ASCII codes of the encoded text, with `=` (code 61) padding. -/
def b64encode : List ℕ → List ℕ
  | [] => []
  | [a] => [b64alphabet.getD (a / 4) 0, b64alphabet.getD (a % 4 * 16) 0, 61, 61]
  | [a, b] => [b64alphabet.getD (a / 4) 0, b64alphabet.getD (a % 4 * 16 + b / 16) 0,
      b64alphabet.getD (b % 16 * 4) 0, 61]
  | a :: b :: c :: rest =>
      b64alphabet.getD (a / 4) 0 :: b64alphabet.getD (a % 4 * 16 + b / 16) 0 ::
      b64alphabet.getD (b % 16 * 4 + c / 64) 0 :: b64alphabet.getD (c % 64) 0 :: b64encode rest

/-- Big-endian 8-bit expansion of a byte (`format(b, '08b')`). -/
def byteBits (b : ℕ) : List ℕ :=
  [b / 128 % 2, b / 64 % 2, b / 32 % 2, b / 16 % 2, b / 8 % 2, b / 4 % 2, b / 2 % 2, b % 2]

/-- The bit string the embedder writes: base64-encode the message bytes,
expand to bits, truncate to the number of available 8x8 blocks
(`bits[: bh * bw]`). -/
def wm_bits (message : List ℕ) (h w : ℕ) : List ℕ :=
  ((b64encode message).flatMap byteBits).take (blocksOf h * blocksOf w)

/-- Rounding to the nearest integer with ties to even, modelling `np.round`
followed by `int(...)` on the already-integral result. -/
def np_round (q : ℚ) : ℤ :=
  if q - ⌊q⌋ = 1 / 2 then (if ⌊q⌋ % 2 = 0 then ⌊q⌋ else ⌊q⌋ + 1) else round q

/-- The per-block coefficient update of `embed_watermark_dct_bytes`: round
the (1,0) coefficient to `coeff_int`; if its parity (Python `%`, hence
non-negative) differs from the message bit, replace the coefficient by
`coeff_int + alpha` when `coeff_int >= 0` and by `coeff_int - alpha`
otherwise; else leave the coefficient untouched. -/
def adjustCoeff (coeff : ℚ) (bit : ℕ) (alpha : ℤ) : ℚ :=
  if np_round coeff % 2 ≠ (bit : ℤ) then
    (if 0 ≤ np_round coeff then ((np_round coeff + alpha : ℤ) : ℚ)
     else ((np_round coeff - alpha : ℤ) : ℚ))
  else coeff

/-- The watermark embedder on the decoded luma/chroma planes
(`embed_watermark_dct_bytes` after `imdecode`/`cvtColor`, before the final
color conversion and PNG re-encode, which are external).  `dct` and `idct`
are the external 8x8 forward and inverse block transforms of cv2.  Blocks
are processed in row-major order, one message bit per block, stopping when
the bits are exhausted; the luma plane is reflect-padded to multiples of 8
and the result is cropped back to `h` by `w` (the extent fields of the
returned image); the chroma planes are passed through.  The error case is
`raise ValueError("Message empty or host too small")`. -/
def embed_watermark_dct (dct idct : (ℕ → ℕ → ℚ) → ℕ → ℕ → ℚ) (img : YCbCr)
    (message : List ℕ) (alpha : ℤ) : Except String (YCbCr × List ℕ) :=
  let h := img.h
  let w := img.w
  let y_p : ℕ → ℕ → ℚ := fun i j => img.y (reflectIdx h i) (reflectIdx w j)
  let bh := blocksOf h
  let bw := blocksOf w
  let msg_b64 := b64encode message
  let bits := wm_bits message h w
  if bits.isEmpty then Except.error "Message empty or host too small"
  else
    let y_emb : ℕ → ℕ → ℚ := fun i j =>
      let k := i / 8 * bw + j / 8
      if i / 8 < bh ∧ j / 8 < bw ∧ k < bits.length then
        let d := dct fun r c => y_p (i / 8 * 8 + r) (j / 8 * 8 + c)
        let d2 : ℕ → ℕ → ℚ := fun r c =>
          if r = 1 ∧ c = 0 then adjustCoeff (d 1 0) (bits.getD k 0) alpha else d r c
        idct d2 (i % 8) (j % 8)
      else y_p i j
    Except.ok ({ h := h, w := w, y := y_emb, cb := img.cb, cr := img.cr }, msg_b64)

/-- A 4x4 all-zero host image: after reflect padding it has one 8x8 block. -/
def hostTiny : YCbCr :=
  { h := 4, w := 4, y := fun _ _ => 0, cb := fun _ _ => 0, cr := fun _ _ => 0 }

/-- An 8x8 host whose luma plane has value 1 at row 1, column 0 and 0
elsewhere, so that under the identity block transform the (1,0) coefficient
of its single block is exactly 1. -/
def hostCoeffOne : YCbCr :=
  { h := 8, w := 8, y := fun i j => if i = 1 ∧ j = 0 then 1 else 0,
    cb := fun _ _ => 0, cr := fun _ _ => 0 }

/-- The embedder succeeds exactly when the truncated bit string is non-empty. -/
lemma embed_isOk_iff (dct idct : (ℕ → ℕ → ℚ) → ℕ → ℕ → ℚ) (img : YCbCr)
    (message : List ℕ) (alpha : ℤ) :
    (embed_watermark_dct dct idct img message alpha).isOk = true ↔
      ¬ (wm_bits message img.h img.w).isEmpty = true := by
  simp only [embed_watermark_dct]
  by_cases hb : (wm_bits message img.h img.w).isEmpty = true <;>
    simp [hb, Except.isOk, Except.toBool]

/-- The base64 encoding of a non-empty byte list is non-empty. -/
lemma b64encode_ne_nil (a : ℕ) (rest : List ℕ) : b64encode (a :: rest) ≠ [] := by
  match rest with
  | [] => simp [b64encode]
  | [b] => simp [b64encode]
  | b :: c :: rest2 => simp [b64encode]

/-- An empty message yields an empty bit string. -/
lemma wm_bits_nil (h w : ℕ) : wm_bits [] h w = [] := by
  simp [wm_bits, b64encode]

/-- A non-empty message on a host with at least one row and one column
yields a non-empty truncated bit string. -/
lemma wm_bits_ne_nil (a : ℕ) (rest : List ℕ) (h w : ℕ) (hh : 1 ≤ h) (hw : 1 ≤ w) :
    wm_bits (a :: rest) h w ≠ [] := by
  unfold wm_bits
  obtain ⟨x, xs, hx⟩ := List.exists_cons_of_ne_nil (b64encode_ne_nil a rest)
  rw [hx]
  have hpos : 0 < blocksOf h * blocksOf w := by
    unfold blocksOf
    have h1 : 0 < (h + (8 - h % 8) % 8) / 8 := by omega
    have h2 : 0 < (w + (8 - w % 8) % 8) / 8 := by omega
    exact Nat.mul_pos h1 h2
  cases hk : blocksOf h * blocksOf w with
  | zero => omega
  | succ m => simp [byteBits, List.flatMap_cons]

/-- C9: the embedder only touches the luma plane: whenever it succeeds, the
chroma planes of the output image are the chroma planes of the decoded
input, unchanged, and the output luma extent is cropped back to the original
`h` by `w`. -/
theorem embed_preserves_chroma_and_dims (dct idct : (ℕ → ℕ → ℚ) → ℕ → ℕ → ℚ)
    (img : YCbCr) (message : List ℕ) (alpha : ℤ) :
    (embed_watermark_dct dct idct img message alpha).map
        (fun r => (r.1.cb, r.1.cr, r.1.h, r.1.w)) =
      (embed_watermark_dct dct idct img message alpha).map
        (fun _ => (img.cb, img.cr, img.h, img.w)) := by
  simp only [embed_watermark_dct]
  split <;> rfl

/-- C2 (counterexample): on a 4x4 host (so `floor(h/8)*floor(w/8) = 0`) and
the one-byte message "A", the embedder succeeds, even though the bit string
truncated to `floor(h/8)*floor(w/8)` bits is empty, where the claim asserts
failure exactly in that case.  The code truncates to the padded block count
`ceil(h/8)*ceil(w/8) = 1`, not the floor. -/
theorem embed_succeeds_beyond_floor_capacity :
    (embed_watermark_dct id id hostTiny [65] 4).isOk = true ∧
    ((b64encode [65]).flatMap byteBits).take (4 / 8 * (4 / 8)) = [] ∧
    wm_bits [65] 4 4 = [0] := by
  refine ⟨?_, by decide, by decide⟩
  rfl

/-- C2 (amended): the embedder truncates the base64 bit string of the
message to the first `ceil(h/8)*ceil(w/8)` bits (the block count after
reflect padding) and does not throw on messages exceeding that capacity; for
a host with at least one row and one column it fails exactly when the
message is empty, which is the only way the truncated bit string is empty. -/
theorem embed_capacity_truncation (dct idct : (ℕ → ℕ → ℚ) → ℕ → ℕ → ℚ)
    (img : YCbCr) (message : List ℕ) (alpha : ℤ)
    (hh : 1 ≤ img.h) (hw : 1 ≤ img.w) :
    wm_bits message img.h img.w =
      ((b64encode message).flatMap byteBits).take ((img.h + 7) / 8 * ((img.w + 7) / 8)) ∧
    ((embed_watermark_dct dct idct img message alpha).isOk = true ↔ message ≠ []) := by
  have hblocks : ∀ n : ℕ, blocksOf n = (n + 7) / 8 := by
    intro n
    unfold blocksOf
    omega
  have hbits : wm_bits message img.h img.w =
      ((b64encode message).flatMap byteBits).take ((img.h + 7) / 8 * ((img.w + 7) / 8)) := by
    unfold wm_bits
    rw [hblocks, hblocks]
  refine ⟨hbits, ?_⟩
  rw [embed_isOk_iff]
  constructor
  · intro hne hm
    subst hm
    exact hne (by simp [wm_bits_nil])
  · intro hm hc
    obtain ⟨a, rest, rfl⟩ := List.exists_cons_of_ne_nil hm
    rw [List.isEmpty_iff] at hc
    exact wm_bits_ne_nil a rest _ _ hh hw hc

/-- Witness for C2 at concrete inputs: the 4x4 host with the message "A"
(one byte, 65) and the identity transforms; the hypotheses `1 ≤ h`, `1 ≤ w`
hold and the embedder succeeds since the message is non-empty. -/
theorem embed_capacity_truncation_witness :
    wm_bits [65] hostTiny.h hostTiny.w =
      ((b64encode [65]).flatMap byteBits).take
        ((hostTiny.h + 7) / 8 * ((hostTiny.w + 7) / 8)) ∧
    ((embed_watermark_dct id id hostTiny [65] 4).isOk = true ↔ ([65] : List ℕ) ≠ []) :=
  embed_capacity_truncation id id hostTiny [65] 4 (by decide) (by decide)

/-- Rounding with ties to even agrees with the identity on integers. -/
lemma np_round_int (n : ℤ) : np_round (n : ℚ) = n := by
  unfold np_round
  rw [Int.floor_intCast]
  have h0 : (n : ℚ) - n = 0 := by ring
  rw [h0]
  norm_num [round_intCast]

/-- Evaluation of the coefficient update at coefficient 1, bit 0, alpha 4. -/
lemma adjustCoeff_one_bit0 : adjustCoeff 1 0 4 = 5 := by
  have h1 : np_round 1 = 1 := by
    have := np_round_int 1
    rwa [Int.cast_one] at this
  unfold adjustCoeff
  rw [h1]
  norm_num

/-- C1 (code evaluated at the failing input): embedding the message "A"
(whose first base64 bit is 0) into a host whose single block has (1,0)
coefficient exactly 1 writes the coefficient `1 + alpha = 5` (default
`alpha = 4`), because the rounded coefficient 1 has parity 1, not 0.  But 5
also rounds to parity 1, so reading the parity of the written coefficient
back yields bit 1, not the embedded bit 0: adding the even default `alpha`
never changes the parity it is meant to fix. -/
theorem embed_parity_readback_bug :
    (wm_bits [65] 8 8).getD 0 0 = 0 ∧
    adjustCoeff 1 0 4 = 5 ∧
    (embed_watermark_dct id id hostCoeffOne [65] 4).map
        (fun r => np_round (r.1.y 1 0) % 2) = Except.ok 1 := by
  refine ⟨by decide, adjustCoeff_one_bit0, ?_⟩
  have hval : (embed_watermark_dct id id hostCoeffOne [65] 4).map
      (fun r => np_round (r.1.y 1 0) % 2) =
      Except.ok (np_round (adjustCoeff 1 0 4) % 2) := rfl
  have h5 : np_round 5 = 5 := by
    have := np_round_int 5
    rwa [show (((5 : ℤ) : ℚ)) = (5 : ℚ) by norm_num] at this
  rw [hval, adjustCoeff_one_bit0, h5]
  norm_num

/-- The analysis quantities the `analyze` endpoint computes from the decoded
image before assembling the result: the components come from the external
collaborators (hashing, metadata extraction, the statistical analyzers, OCR,
and the RDR trials), so they are inputs of the pure assembly step. -/
structure AnalysisInputs where
  path : String
  sha : String
  metadata_flags : List String
  lsb_entropy : ℚ
  global_entropy : ℚ
  blockiness : ℚ
  ocr_texts : List String
  ocr_suspicious : List String
  rdr_score : ℚ
  rdr_examples : List String

/-- The result record assembled by `analyze` (the `res` dictionary). -/
structure AnalysisResult where
  path : String
  sha : String
  metadata_flags : List String
  lsb_entropy : ℚ
  global_entropy : ℚ
  blockiness : ℚ
  ocr_texts : List String
  ocr_suspicious : List String
  rdr_score : ℚ
  rdr_examples : List String
  stego_score : ℚ
  decision : Decision
  watermarked_base64 : Option (List ℕ)
  watermark_message : Option (List ℕ)
  watermark_error : Option String

/-- Pure assembly step of the `analyze` endpoint: computes the composite
score and decision, then, when watermarking is enabled and the decision is
ALLOW, attaches the outcome of the embedding call `wm` (watermarked bytes
and base64 message on success, the exception text as `watermark_error` on
failure — the `except` branch of the source). -/
def analyze (inp : AnalysisInputs) (watermark_enabled : Bool)
    (wm : Except String (List ℕ × List ℕ)) : AnalysisResult :=
  let stego := stego_score inp.lsb_entropy inp.global_entropy inp.blockiness inp.metadata_flags
  let decision := final_decision stego inp.rdr_score (!inp.ocr_suspicious.isEmpty)
  let wmf : Option (List ℕ) × Option (List ℕ) × Option String :=
    if watermark_enabled = true ∧ decision = Decision.ALLOW then
      match wm with
      | Except.ok p => (some p.1, some p.2, none)
      | Except.error e => (none, none, some e)
    else (none, none, none)
  { path := inp.path, sha := inp.sha, metadata_flags := inp.metadata_flags,
    lsb_entropy := inp.lsb_entropy, global_entropy := inp.global_entropy,
    blockiness := inp.blockiness, ocr_texts := inp.ocr_texts,
    ocr_suspicious := inp.ocr_suspicious, rdr_score := inp.rdr_score,
    rdr_examples := inp.rdr_examples, stego_score := stego, decision := decision,
    watermarked_base64 := wmf.1, watermark_message := wmf.2.1,
    watermark_error := wmf.2.2 }

/-- C5: when the embedding call fails with any exception `e`, the analysis
result is still assembled complete: identifier, metadata flags, all four
numeric scores, OCR lists, RDR fields, composite score and decision are
exactly those of a run in which watermarking was never attempted, the error
text is attached as `watermark_error` precisely when the embedder ran (the
decision was ALLOW), and no watermark payload fields are set -- the analysis
is never discarded because watermarking failed. -/
theorem analyze_embed_error_nonfatal (inp : AnalysisInputs) (e : String) :
    (analyze inp true (Except.error e)).path = inp.path ∧
    (analyze inp true (Except.error e)).sha = inp.sha ∧
    (analyze inp true (Except.error e)).metadata_flags = inp.metadata_flags ∧
    (analyze inp true (Except.error e)).lsb_entropy = inp.lsb_entropy ∧
    (analyze inp true (Except.error e)).global_entropy = inp.global_entropy ∧
    (analyze inp true (Except.error e)).blockiness = inp.blockiness ∧
    (analyze inp true (Except.error e)).ocr_texts = inp.ocr_texts ∧
    (analyze inp true (Except.error e)).ocr_suspicious = inp.ocr_suspicious ∧
    (analyze inp true (Except.error e)).rdr_score = inp.rdr_score ∧
    (analyze inp true (Except.error e)).rdr_examples = inp.rdr_examples ∧
    (analyze inp true (Except.error e)).stego_score =
      (analyze inp false (Except.error e)).stego_score ∧
    (analyze inp true (Except.error e)).decision =
      (analyze inp false (Except.error e)).decision ∧
    (analyze inp true (Except.error e)).watermark_error =
      (if (analyze inp true (Except.error e)).decision = Decision.ALLOW then some e else none) ∧
    (analyze inp true (Except.error e)).watermarked_base64 = none ∧
    (analyze inp true (Except.error e)).watermark_message = none := by
  by_cases hd : final_decision
      (stego_score inp.lsb_entropy inp.global_entropy inp.blockiness inp.metadata_flags)
      inp.rdr_score (!inp.ocr_suspicious.isEmpty) = Decision.ALLOW <;>
    simp [analyze, hd]

/-- The epsilon guard `1e-12` of `shannon_entropy`. -/
noncomputable def entropyEps : ℝ := 1 / 10 ^ 12

/-- Exact-arithmetic model of `shannon_entropy`: 256-bin histogram of the
flattened plane (`np.bincount(arr, minlength=256)`), probabilities
`hist / (hist.sum() + 1e-12)` (the histogram total is the pixel count),
zero bins dropped (`probs[probs > 0]`), and the final reduction
`-sum(probs * log2(probs + 1e-12))` with the second epsilon inside the
logarithm exactly as in the source. -/
noncomputable def shannon_entropy (plane : List ℕ) : ℝ :=
  -∑ i ∈ Finset.range 256,
    (if 0 < plane.count i then
      ((plane.count i : ℝ) / ((plane.length : ℝ) + entropyEps)) *
        Real.logb 2
          ((plane.count i : ℝ) / ((plane.length : ℝ) + entropyEps) + entropyEps)
    else 0)

/-- C6 (counterexample): on a constant 16-pixel plane the single occupied
bin has probability `16 / (16 + 1e-12)`, and adding the in-log epsilon
pushes the logarithm argument above 1, so the returned entropy is strictly
negative, contradicting the claimed range [0, 8]. -/
theorem shannon_entropy_negative_on_constant_plane :
    shannon_entropy (List.replicate 16 0) < 0 := by
  have hcount0 : (List.replicate 16 0).count 0 = 16 := by simp
  have hlen : (List.replicate 16 0).length = 16 := by simp
  unfold shannon_entropy
  rw [Finset.sum_eq_single_of_mem 0 (Finset.mem_range.mpr (by norm_num))]
  · rw [hcount0, hlen, if_pos (by norm_num)]
    have heps : entropyEps = 1 / 10 ^ 12 := rfl
    have harg : (1:ℝ) < (16 : ℝ) / ((16 : ℝ) + entropyEps) + entropyEps := by
      rw [heps]
      norm_num
    have hppos : (0:ℝ) < (16 : ℝ) / ((16 : ℝ) + entropyEps) := by
      rw [heps]
      norm_num
    have hlog : (0:ℝ) < Real.logb 2 ((16 : ℝ) / ((16 : ℝ) + entropyEps) + entropyEps) :=
      Real.logb_pos one_lt_two harg
    push_cast
    nlinarith [mul_pos hppos hlog]
  · intro b _ hb
    rw [if_neg]
    rw [List.count_replicate]
    simp [hb]
    omega

/-- On a plane of 8-bit samples the 256-bin histogram totals the length. -/
lemma count_sum_eq_length (plane : List ℕ) (h8 : ∀ x ∈ plane, x < 256) :
    ∑ i ∈ Finset.range 256, plane.count i = plane.length := by
  induction plane with
  | nil => simp
  | cons a t ih =>
    have ha : a < 256 := h8 a (List.mem_cons_self a t)
    have iht := ih fun x hx => h8 x (List.mem_cons_of_mem a hx)
    have hone : ∑ i ∈ Finset.range 256, ((if a == i then 1 else 0) : ℕ) = 1 := by
      have hcongr : ∀ i ∈ Finset.range 256,
          (if a == i then 1 else 0) = (if a = i then (fun _ : ℕ => 1) i else 0) := by
        intro i _
        simp [beq_iff_eq]
      rw [Finset.sum_congr rfl hcongr, Finset.sum_ite_eq (Finset.range 256) a fun _ => 1]
      simp [Finset.mem_range.mpr ha]
    simp only [List.count_cons, List.length_cons]
    rw [Finset.sum_add_distrib, iht, hone]

/-- C6 (amended): for every plane of 8-bit samples the returned entropy is
at most 8, and bounded below by -1 (in fact by an infinitesimal negative
amount): the epsilon added inside the logarithm makes the value of a
near-constant plane slightly negative, so [0, 8] fails but (-1, 8] holds. -/
theorem shannon_entropy_bounds (plane : List ℕ) (h8 : ∀ x ∈ plane, x < 256) :
    -1 < shannon_entropy plane ∧ shannon_entropy plane ≤ 8 := by
  have hlog2 : (0:ℝ) < Real.log 2 := Real.log_pos one_lt_two
  have hlog2d : (0.6931471803 : ℝ) < Real.log 2 := Real.log_two_gt_d9
  have heps : (0:ℝ) < entropyEps := by norm_num [entropyEps]
  have hepsval : entropyEps = 1 / 10 ^ 12 := rfl
  have hD0 : (0:ℝ) < (plane.length : ℝ) + entropyEps := by positivity
  set P : ℕ → ℝ := fun i => (plane.count i : ℝ) / ((plane.length : ℝ) + entropyEps) with hP
  have hent : shannon_entropy plane =
      -∑ i ∈ Finset.range 256,
        (if 0 < plane.count i then P i * Real.logb 2 (P i + entropyEps) else 0) := by
    unfold shannon_entropy
    simp only [hP]
  have hp0 : ∀ i : ℕ, 0 ≤ P i := by
    intro i
    simp only [hP]
    positivity
  have hple : ∀ i : ℕ, P i ≤ 1 := by
    intro i
    simp only [hP]
    rw [div_le_one hD0]
    have hcl : (plane.count i : ℝ) ≤ (plane.length : ℝ) := by
      exact_mod_cast List.count_le_length i plane
    linarith
  -- lower bound
  have hlogb_eps_nonneg : 0 ≤ Real.logb 2 (1 + entropyEps) :=
    Real.logb_nonneg one_lt_two (by linarith)
  have hterm_le : ∀ i ∈ Finset.range 256,
      (if 0 < plane.count i then P i * Real.logb 2 (P i + entropyEps) else 0) ≤
        Real.logb 2 (1 + entropyEps) := by
    intro i _
    by_cases hc : 0 < plane.count i
    · rw [if_pos hc]
      have hppos : 0 < P i := by
        simp only [hP]
        exact div_pos (by exact_mod_cast hc) hD0
      have hmono : Real.logb 2 (P i + entropyEps) ≤ Real.logb 2 (1 + entropyEps) := by
        unfold Real.logb
        exact (div_le_div_right hlog2).mpr
          ((Real.log_le_log_iff (by linarith) (by linarith)).mpr (by linarith [hple i]))
      have hm1 := mul_le_mul_of_nonneg_left hmono (hp0 i)
      have hm2 := mul_le_mul_of_nonneg_right (hple i) hlogb_eps_nonneg
      linarith
    · rw [if_neg hc]
      exact hlogb_eps_nonneg
  have hsum_le : ∑ i ∈ Finset.range 256,
      (if 0 < plane.count i then P i * Real.logb 2 (P i + entropyEps) else 0) ≤
        256 * Real.logb 2 (1 + entropyEps) := by
    have h := Finset.sum_le_sum hterm_le
    rw [Finset.sum_const, Finset.card_range] at h
    simpa [nsmul_eq_mul] using h
  have hsmall : 256 * Real.logb 2 (1 + entropyEps) < 1 := by
    have hlogle : Real.log (1 + entropyEps) ≤ entropyEps := by
      have := Real.log_le_sub_one_of_pos (x := 1 + entropyEps) (by linarith)
      linarith
    have hlb : Real.logb 2 (1 + entropyEps) ≤ entropyEps / Real.log 2 := by
      unfold Real.logb
      exact (div_le_div_right hlog2).mpr hlogle
    have h2e : entropyEps / Real.log 2 < 2 * entropyEps := by
      rw [div_lt_iff hlog2]
      nlinarith
    have hfin : 256 * (2 * entropyEps) < 1 := by
      rw [hepsval]
      norm_num
    nlinarith [hlb, h2e]
  have hlower : -1 < shannon_entropy plane := by
    rw [hent]
    linarith [lt_of_le_of_lt hsum_le hsmall]
  -- upper bound
  have hcsum : ∑ i ∈ Finset.range 256, P i =
      (plane.length : ℝ) / ((plane.length : ℝ) + entropyEps) := by
    simp only [hP]
    rw [← Finset.sum_div]
    congr 1
    rw [← Nat.cast_sum, count_sum_eq_length plane h8]
  have hc0 : 0 ≤ ∑ i ∈ Finset.range 256, P i := Finset.sum_nonneg fun i _ => hp0 i
  have hc1 : ∑ i ∈ Finset.range 256, P i ≤ 1 := by
    rw [hcsum, div_le_one hD0]
    linarith
  have hterm_ge : ∀ i ∈ Finset.range 256,
      -(if 0 < plane.count i then P i * Real.logb 2 (P i + entropyEps) else 0) ≤
        (P i * Real.log 256 + (1 / 256 - P i)) / Real.log 2 := by
    intro i _
    by_cases hc : 0 < plane.count i
    · rw [if_pos hc]
      have hppos : 0 < P i := by
        simp only [hP]
        exact div_pos (by exact_mod_cast hc) hD0
      have hlog_up : Real.log (P i) ≤ Real.log (P i + entropyEps) :=
        (Real.log_le_log_iff hppos (by linarith)).mpr (by linarith)
      have h256p : (0:ℝ) < 256 * P i := by nlinarith
      have hinv : Real.log (1 / (256 * P i)) ≤ 1 / (256 * P i) - 1 :=
        Real.log_le_sub_one_of_pos (div_pos one_pos h256p)
      have hsplit : Real.log (1 / (256 * P i)) = -(Real.log 256) - Real.log (P i) := by
        rw [one_div, Real.log_inv, Real.log_mul (by norm_num) (ne_of_gt hppos)]
        ring
      have hmul := mul_le_mul_of_nonneg_left hinv (hp0 i)
      rw [hsplit] at hmul
      have hpinv : P i * (1 / (256 * P i) - 1) = 1 / 256 - P i := by
        have hne : P i ≠ 0 := ne_of_gt hppos
        field_simp
        ring
      rw [hpinv] at hmul
      have hkey : P i * (-Real.log (P i)) ≤ P i * Real.log 256 + (1 / 256 - P i) := by
        nlinarith [hmul]
      have h2 : P i * Real.log (P i) ≤ P i * Real.log (P i + entropyEps) :=
        mul_le_mul_of_nonneg_left hlog_up (hp0 i)
      have h1 : -(P i * Real.log (P i + entropyEps)) ≤
          P i * Real.log 256 + (1 / 256 - P i) := by
        nlinarith [hkey, h2]
      have hrw : -(P i * Real.logb 2 (P i + entropyEps)) =
          (-(P i * Real.log (P i + entropyEps))) / Real.log 2 := by
        unfold Real.logb
        ring
      rw [hrw]
      exact (div_le_div_right hlog2).mpr h1
    · rw [if_neg hc]
      have hp0i : P i = 0 := by
        have hcc : plane.count i = 0 := Nat.eq_zero_of_not_pos hc
        simp only [hP, hcc]
        norm_num
      rw [hp0i]
      norm_num
      positivity
  have hsum_ge := Finset.sum_le_sum hterm_ge
  rw [Finset.sum_neg_distrib] at hsum_ge
  have hgsum : ∑ i ∈ Finset.range 256, (P i * Real.log 256 + (1 / 256 - P i)) / Real.log 2 =
      ((∑ i ∈ Finset.range 256, P i) * Real.log 256 +
        (1 - ∑ i ∈ Finset.range 256, P i)) / Real.log 2 := by
    rw [← Finset.sum_div]
    congr 1
    rw [Finset.sum_add_distrib, ← Finset.sum_mul, Finset.sum_sub_distrib, Finset.sum_const,
      Finset.card_range]
    norm_num
  have hle8 : ((∑ i ∈ Finset.range 256, P i) * Real.log 256 +
      (1 - ∑ i ∈ Finset.range 256, P i)) / Real.log 2 ≤ 8 := by
    rw [div_le_iff hlog2, show (256:ℝ) = 2 ^ 8 by norm_num, Real.log_pow]
    push_cast
    nlinarith [mul_nonneg (sub_nonneg.mpr hc1)
      (by nlinarith : (0:ℝ) ≤ 8 * Real.log 2 - 1)]
  have hupper : shannon_entropy plane ≤ 8 := by
    rw [hent]
    rw [hgsum] at hsum_ge
    linarith
  exact ⟨hlower, hupper⟩

/-- Witness for C6 (amended) at a concrete two-pixel plane. -/
theorem shannon_entropy_bounds_witness :
    -1 < shannon_entropy [0, 1] ∧ shannon_entropy [0, 1] ≤ 8 :=
  shannon_entropy_bounds [0, 1] (by decide)

end StegoShield
